import Mathlib

/-
  Verification development for diskSpace.py, a cross-platform Top-N disk
  usage scanner.  The Python source is shallowly embedded: pure fragments
  become Lean functions over lists; the filesystem walk is modelled by a
  finite tree of directory and file nodes carrying the error flags the
  permissive traversal reacts to; code that can raise a Python exception
  returns an Option or Except value, with none / error marking the raise.

  Python machine model used throughout:
  - Python ints are unbounded, embedded as Int (sizes, being st_size
    values, are embedded as Nat).
  - st_mtime is used by the program only through tuple comparison, so it
    is embedded as Int.
  - Python strings are embedded as Lean strings; the string operations
    the program uses (strip, lower, split, replace, comparison) are
    defined here over the character list, faithful to Python semantics
    for the character ranges stated in each doc comment.
-/

namespace DiskSpace

/-! ## Character and string primitives (models of the Python str methods) -/

/-- Code-point order on characters; Python compares strings by code point. -/
def charLt (a b : Char) : Prop := a.toNat < b.toNat

instance : DecidableRel charLt := fun _ _ => Nat.decLt _ _

/-- Lexicographic code-point order on character lists: the model of
Python string comparison a < b. -/
def clLt : List Char → List Char → Prop
  | [], [] => False
  | [], _ :: _ => True
  | _ :: _, [] => False
  | a :: as, b :: bs => charLt a b ∨ (a = b ∧ clLt as bs)

instance clLt.decRel : DecidableRel clLt := fun a b => by
  induction a generalizing b with
  | nil => cases b <;> simp [clLt] <;> infer_instance
  | cons x xs ih =>
    cases b with
    | nil => simp only [clLt]; infer_instance
    | cons y ys =>
      simp only [clLt]
      exact @instDecidableOr _ _ _ (@instDecidableAnd _ _ _ (ih ys))

/-- Non-strict version of the string order. -/
def clLe (a b : List Char) : Prop := clLt a b ∨ a = b

instance : DecidableRel clLe := fun a b => by
  unfold clLe; exact @instDecidableOr _ _ _ _

/-- Model of Python str.isspace for a single character, covering the ASCII
whitespace characters that str.strip removes.  (Python also strips some
non-ASCII Unicode whitespace; the program only ever meets ASCII blanks.) -/
def pySpace (c : Char) : Bool :=
  c = ' ' || c = '\t' || c = '\n' || c = '\r' || c = '\x0b' || c = '\x0c'

/-- Model of Python str.strip(): remove leading and trailing whitespace. -/
def pyStrip (l : List Char) : List Char :=
  ((l.dropWhile pySpace).reverse.dropWhile pySpace).reverse

/-- Model of Python str.lower() on the ASCII range: map A-Z to a-z and leave
every other character unchanged.  (Unicode case mapping beyond ASCII is not
modelled; the selection grammar is ASCII.) -/
def pyLowerChar (c : Char) : Char :=
  if 'A' ≤ c ∧ c ≤ 'Z' then Char.ofNat (c.toNat + 32) else c

def pyLower (l : List Char) : List Char := l.map pyLowerChar

/-- Model of Python str.split(sep) for a one-character separator: split at
every occurrence, keeping empty pieces, as Python does. -/
def pySplit (sep : Char) (l : List Char) : List (List Char) :=
  l.foldr
    (fun c acc =>
      if c = sep then [] :: acc
      else (c :: acc.headI) :: acc.tail)
    [[]]

/-- Model of s.replace(";", ",") : a one-character replacement is a map. -/
def semiToComma (l : List Char) : List Char :=
  l.map (fun c => if c = ';' then ',' else c)

/-- Model of s.replace(" - ", "-"): scan left to right, replacing each
non-overlapping occurrence of space-hyphen-space by a hyphen, exactly as
Python str.replace does. -/
def collapseDash : List Char → List Char
  | ' ' :: '-' :: ' ' :: rest => '-' :: collapseDash rest
  | c :: rest => c :: collapseDash rest
  | [] => []

/-- Model of Python str.isdigit for one character.  The Unicode digit table
is modelled on the ASCII decimal digits plus the superscript digits, which
carry the Unicode digit property while not being decimal digits; other
non-ASCII digit characters are outside the model.  The split matters:
int() accepts only decimal digits, so a string such as a superscript two
passes isdigit yet makes int() raise ValueError. -/
def pyIsDigitChar (c : Char) : Bool :=
  c.isDigit || c = '¹' || c = '²' || c = '³'

/-- Model of token.isdigit(): non-empty and every character a digit. -/
def pyIsDigit (l : List Char) : Bool :=
  !l.isEmpty && l.all pyIsDigitChar

/-- Numeric value of a list of decimal digits, as int() computes it. -/
def digitsVal (l : List Char) : Nat :=
  l.foldl (fun a c => a * 10 + (c.toNat - 48)) 0

/-- Model of Python int(token) at the call sites of parse_selection, which
guard the call with token.isdigit(): it succeeds exactly when every
character is a decimal digit, and raises ValueError when the token contains
a digit-property character that is not decimal (such as a superscript). -/
def pyInt (l : List Char) : Except String Int :=
  if !l.isEmpty && l.all Char.isDigit then .ok (digitsVal l)
  else .error "ValueError: invalid literal for int() with base 10"

/-! ## parse_selection (lines 158-197 of diskSpace.py) -/

/-- Closed integer interval a..b as a list (empty when b < a), the model of
Python range(a, b + 1). -/
def intRangeCl (a b : Int) : List Int :=
  (List.range (b + 1 - a).toNat).map (fun (k : Nat) => a + (k : Int))

/-- Model of list(range(1, max_idx + 1)). -/
def intRange1 (max_idx : Int) : List Int := intRangeCl 1 max_idx

/-- Model of chosen.add(i) on the Python set: the set is embedded as a
duplicate-free list, closed under the final sorted(). -/
def addChosen (chosen : List Int) (i : Int) : List Int :=
  if i ∈ chosen then chosen else i :: chosen

/-- Model of the bound swap: if a > b: a, b = b, a. -/
def swapIfGt (a b : Int) : Int × Int := if a > b then (b, a) else (a, b)

/-- Range token body: a, b = int(parts[0]), int(parts[1]); swap when a > b;
then add every value of the inclusive range that lies within 1..max_idx. -/
def rangeAdd (max_idx a b : Int) (chosen : List Int) : List Int :=
  (intRangeCl (swapIfGt a b).1 (swapIfGt a b).2).foldl
    (fun c i => if 1 ≤ i ∧ i ≤ max_idx then addChosen c i else c) chosen

/-- Single-number fall-through at the end of the loop body: if the token is
all digits, parse it and add it when within range; int() may raise. -/
def singleStep (max_idx : Int) (tok : List Char) (chosen : List Int) :
    Except String (List Int) :=
  if pyIsDigit tok then
    (pyInt tok).map (fun i => if 1 ≤ i ∧ i ≤ max_idx then addChosen chosen i else chosen)
  else .ok chosen

/-- One non-"all" loop iteration of parse_selection: try the range form
when the token contains a hyphen (falling through to the single-number
check when the range shape or its digit test fails), otherwise the
single-number check.  Errors model int() raising ValueError. -/
def tokenStep (max_idx : Int) (tok : List Char) (chosen : List Int) :
    Except String (List Int) :=
  if ('-' : Char) ∈ tok then
    match (pySplit '-' tok |>.map pyStrip).filter (· ≠ []) with
    | [p0, p1] =>
      if pyIsDigit p0 && pyIsDigit p1 then
        match pyInt p0, pyInt p1 with
        | .ok a, .ok b => .ok (rangeAdd max_idx a b chosen)
        | .error e, _ => .error e
        | _, .error e => .error e
      else singleStep max_idx tok chosen
    | _ => singleStep max_idx tok chosen
  else singleStep max_idx tok chosen

/-- The loop over tokens.  A token equal to "all" returns the full range at
once, discarding the accumulator, as the early return in the source does;
after the last token the chosen set is returned sorted ascending. -/
def goTokens (max_idx : Int) : List (List Char) → List Int → Except String (List Int)
  | [], chosen => .ok (chosen.insertionSort (· ≤ ·))
  | tok :: ts, chosen =>
    if tok = "all".data then .ok (intRange1 max_idx)
    else
      match tokenStep max_idx tok chosen with
      | .ok c => goTokens max_idx ts c
      | .error e => .error e

/-- Embedding of parse_selection(s, max_idx).  An .error result marks the
call raising a Python exception; .ok carries the returned list. -/
def parse_selection (s : String) (max_idx : Int) : Except String (List Int) :=
  if s.data = [] then .ok []
  else if pyLower (pyStrip s.data) = "all".data then .ok (intRange1 max_idx)
  else
    goTokens max_idx
      (((pySplit ',' (collapseDash (semiToComma (pyLower (pyStrip s.data))))).map
        pyStrip).filter (· ≠ [])) []

/-! ## File entries and the tuple order used by heapq and list.sort -/

/-- A (size, path, mtime) tuple, as stored in the heap of top_files and in
the entries list of top_folders. -/
abbrev Entry := Nat × String × Int

/-- Python tuple comparison a <= b on (size, path, mtime): lexicographic on
size, then path (code-point order), then mtime.  This is the order heapq
maintains and list.sort(reverse=True) inverts. -/
def entryLe (a b : Entry) : Prop :=
  a.1 < b.1 ∨ (a.1 = b.1 ∧ (clLt a.2.1.data b.2.1.data ∨ (a.2.1 = b.2.1 ∧ a.2.2 ≤ b.2.2)))

instance : DecidableRel entryLe := fun a b => by
  unfold entryLe; infer_instance

/-- Reversed tuple order, the comparison of heap.sort(reverse=True). -/
def entryGe (a b : Entry) : Prop := entryLe b a

instance : DecidableRel entryGe := fun a b => by
  unfold entryGe; infer_instance

/-! ## top_files (lines 106-116) -/

/-- The scan loop of top_files over the stream of files yielded by
iter_files.  The heapq heap is embedded by its contents kept sorted
ascending in the tuple order entryLe: heappush inserts the new tuple,
heap[0] is the head (the minimum, as the heap invariant guarantees), and
heapreplace drops the head and inserts the new tuple.  Because entryLe is
a total order, tuples tied at heap[0] are equal, so this sorted-list view
has exactly the observable behaviour of the binary heap: the same branch
decisions (which read only heap[0][0] and len(heap)) and the same final
multiset of tuples (all the final sort depends on).  The result is none
when the Python code raises: with the heap empty and the capacity test
len(heap) < n false (that is, n <= 0) the expression heap[0][0] raises
IndexError. -/
def topFilesAux (n : Int) : List Entry → List Entry → Option (List Entry)
  | heap, [] => some heap
  | heap, e :: rest =>
    if (heap.length : Int) < n then
      topFilesAux n (List.orderedInsert entryLe e heap) rest
    else
      match heap with
      | [] => none
      | m :: hs =>
        if m.1 < e.1 then topFilesAux n (List.orderedInsert entryLe e hs) rest
        else topFilesAux n (m :: hs) rest

/-- Embedding of top_files(root, n).  The root is modelled by the finite
stream of (size, path, mtime) records that iter_files yields for it: the
permissive walk swallows directory errors and stat failures, so an
unreadable or empty root is simply the empty stream.  After the scan the
heap is sorted descending by the whole tuple, as heap.sort(reverse=True)
does.  some r is a normal return of r; none marks the IndexError raised
when n <= 0 meets a nonempty stream. -/
def top_files (files : List Entry) (n : Int) : Option (List Entry) :=
  (topFilesAux n [] files).map (fun h => h.insertionSort entryGe)

/-! ## Directory trees: the filesystem model for top_folders (lines 118-143) -/

mutual
/-- A filesystem node.  A file carries its size, mtime and a flag ok for
whether stat/getsize succeeds on it (False models the per-file errors the
walk swallows).  A directory carries its mtime, a readable flag
(False models a directory whose listing fails: os.walk reports it to
onerror and skips it, os.scandir raises), and its children.  Symbolic
links are not modelled: the program never follows them. -/
inductive FsTree where
  | file (name : String) (size : Nat) (mtime : Int) (ok : Bool)
  | dir (name : String) (mtime : Int) (readable : Bool) (children : Forest)

/-- A list of sibling nodes (a separate type so that recursion over the
tree is structural). -/
inductive Forest where
  | nil
  | cons (t : FsTree) (f : Forest)
end

mutual
/-- Size contributed by one child node inside a walked directory: a file
adds its size when getsize succeeds (failures skipped), a subdirectory adds the
sum over its own walk, an unreadable subdirectory contributes zero because
os.walk skips it via onerror. -/
def subSize : FsTree → Nat
  | .file _ s _ ok => if ok then s else 0
  | .dir _ _ false _ => 0
  | .dir _ _ true cs => forestSize cs
def forestSize : Forest → Nat
  | .nil => 0
  | .cons t f => subSize t + forestSize f
end

/-- Embedding of folder_size(folder): total size accumulated by the
os.walk(folder, onerror=swallow) loop.  Addition being commutative and
associative, accumulating over the walk order equals the structural sum.
Walking a path that is not a readable directory yields no entries. -/
def folder_size : FsTree → Nat
  | .file _ _ _ _ => 0
  | .dir _ _ false _ => 0
  | .dir _ _ true cs => forestSize cs

mutual
/-- Specification-side collector: the sizes of every file the permissive
walk can see anywhere beneath a node, at any depth, with files whose stat
fails and whole unreadable subtrees contributing nothing. -/
def specSizes : FsTree → List Nat
  | .file _ s _ ok => if ok then [s] else []
  | .dir _ _ false _ => []
  | .dir _ _ true cs => specForest cs
def specForest : Forest → List Nat
  | .nil => []
  | .cons t f => specSizes t ++ specForest f
end

/-- The children of a scannable root; a file or unreadable root has none. -/
def childrenOf : FsTree → Forest
  | .dir _ _ true cs => cs
  | _ => .nil

/-- Forest as a plain list of nodes. -/
def Forest.toList : Forest → List FsTree
  | .nil => []
  | .cons t f => t :: Forest.toList f

/-- Model of the os.scandir loop of top_folders: each immediate child that
is a directory (symlinks not followed) contributes the tuple
(folder_size(child), child path, child mtime); files are skipped.  The
path of an entry is modelled by the child name: within one scan every
e.path is root-slash-name with the same root, so code-point comparison of
the full paths coincides with comparison of the names.  e.stat on an
entry just listed is modelled as always succeeding (the mtime is carried
on the node), so the per-entry try-except of the source never fires in
the model; folder_size itself cannot raise, its walk swallows errors. -/
def dirEntries : Forest → List Entry
  | .nil => []
  | .cons (.file _ _ _ _) f => dirEntries f
  | .cons (.dir nm mt rd cs) f => (folder_size (.dir nm mt rd cs), nm, mt) :: dirEntries f

/-- Model of the Python slice entries[:n]: for n >= 0 the first n elements;
for negative n all but the last |n| elements (stop = max(0, len + n)). -/
def pySliceTo (l : List Entry) (n : Int) : List Entry :=
  if 0 ≤ n then l.take n.toNat else l.take ((l.length : Int) + n).toNat

/-- True when os.scandir(root) raises: the root is not a directory or its
listing is denied; top_folders catches this and returns []. -/
def scanFails : FsTree → Bool
  | .file _ _ _ _ => true
  | .dir _ _ r _ => !r

/-- Embedding of top_folders(root, n): scan the immediate children, rank
directories by (size, path, mtime) tuples sorted descending, slice to n.
An unopenable root yields [] through the except branch. -/
def top_folders : FsTree → Int → List Entry
  | .file _ _ _ _, _ => []
  | .dir _ _ false _, _ => []
  | .dir _ _ true cs, n => pySliceTo ((dirEntries cs).insertionSort entryGe) n

/-! ## enumerate_disks, mount-table strategy (lines 54-92) -/

/-- A reported device: (name, root path, total bytes, free bytes), as the
tuples appended to the disks list. -/
abbrev Disk := String × String × Nat × Nat

/-- The host environment the non-Windows branch reads: the mount points
listed by /proc/mounts (or the df fallback), which paths are directories,
what shutil.disk_usage returns (none models the call raising), and the
filesystem's path resolution.  The code itself never calls resolve; it is
part of the environment model because the specification speaks about
mounts that resolve to the same path. -/
structure MountEnv where
  mounts : List String
  isdir : String → Bool
  usage : String → Option (Nat × Nat)
  resolve : String → String

/-- The fixed deny-list of pseudo-filesystem path prefixes. -/
def denyList : List String :=
  ["/proc", "/sys", "/dev", "/run", "/snap", "/private/var"]

/-- Model of any(mnt.startswith(p) for p in denyList). -/
def denied (mnt : String) : Bool :=
  denyList.any (fun p => p.data.isPrefixOf mnt.data)

/-- One iteration of the mount loop, carrying (disks, seen): skip
non-directories, deny-listed paths and already-seen mount strings; mark
the mount seen, then query capacity, appending a device on success and
skipping the mount (already marked seen) when the query raises. -/
def diskStep (env : MountEnv) (st : List Disk × List String) (mnt : String) :
    List Disk × List String :=
  if !env.isdir mnt then st
  else if denied mnt then st
  else if mnt ∈ st.2 then st
  else
    match env.usage mnt with
    | some (total, free) => (st.1 ++ [(mnt, mnt, total, free)], mnt :: st.2)
    | none => (st.1, mnt :: st.2)

/-- Order used by disks.sort(key=lambda t: t[0]): ascending device name. -/
def diskLe (d e : Disk) : Prop := clLe d.1.data e.1.data

instance : DecidableRel diskLe := fun a b => by
  unfold diskLe; infer_instance

/-- Embedding of the non-Windows branch of enumerate_disks, given the host
environment: filter, deduplicate and query each listed mount, then sort the
devices by name. -/
def enumerate_disks (env : MountEnv) : List Disk :=
  ((env.mounts.foldl (diskStep env) ([], [])).1).insertionSort diskLe

/-- Concrete environment exercising path resolution: two mount-table
entries that are different strings but resolve to the same directory. -/
def envSlash : MountEnv where
  mounts := ["/x", "/x/"]
  isdir := fun s => s = "/x" || s = "/x/"
  usage := fun _ => some (100, 50)
  resolve := fun s => if s = "/x/" then "/x" else s

/-- The size components of a list of entries. -/
def sizesOf (l : List Entry) : List Nat := l.map (fun e => e.1)

/-- Concrete tree used to evaluate top_folders: a depth-2 file under d1
and a plain file at depth 1. -/
def exTree : FsTree :=
  .dir "root" 0 true (.cons
    (.dir "d1" 1 true (.cons (.file "a" 10 0 true)
      (.cons (.dir "d2" 2 true (.cons (.file "deep" 7 0 true) .nil)) .nil)))
    (.cons (.file "top" 3 0 true) .nil))

/-- Concrete tree with two immediate child directories. -/
def twoDirTree : FsTree :=
  .dir "r" 0 true (.cons (.dir "a" 0 true .nil) (.cons (.dir "b" 0 true .nil) .nil))

/-! # Theorems -/

/-! ## Order facts for the code-point and tuple comparisons -/

theorem charLt_trichotomy (a b : Char) : charLt a b ∨ a = b ∨ charLt b a := by
  rcases Nat.lt_trichotomy a.toNat b.toNat with h | h | h
  · exact Or.inl h
  · refine Or.inr (Or.inl ?_)
    have ha := Char.ofNat_toNat a
    rw [h, Char.ofNat_toNat] at ha
    exact ha.symm
  · exact Or.inr (Or.inr h)

theorem clLt_trans {a : List Char} : ∀ {b c : List Char}, clLt a b → clLt b c → clLt a c := by
  induction a with
  | nil =>
    intro b c h1 h2
    cases b <;> cases c <;> simp_all [clLt]
  | cons x xs ih =>
    intro b c h1 h2
    cases b with
    | nil => simp [clLt] at h1
    | cons y ys =>
      cases c with
      | nil => simp [clLt] at h2
      | cons z zs =>
        simp only [clLt, charLt] at h1 h2 ⊢
        rcases h1 with h1 | ⟨rfl, h1⟩
        · rcases h2 with h2 | ⟨rfl, h2⟩
          · exact Or.inl (Nat.lt_trans h1 h2)
          · exact Or.inl h1
        · rcases h2 with h2 | ⟨rfl, h2⟩
          · exact Or.inl h2
          · exact Or.inr ⟨rfl, ih h1 h2⟩

theorem clLt_trichotomy : ∀ (a b : List Char), clLt a b ∨ a = b ∨ clLt b a := by
  intro a
  induction a with
  | nil => intro b; cases b <;> simp [clLt]
  | cons x xs ih =>
    intro b
    cases b with
    | nil => simp [clLt]
    | cons y ys =>
      simp only [clLt]
      rcases charLt_trichotomy x y with h | rfl | h
      · exact Or.inl (Or.inl h)
      · rcases ih ys with h | rfl | h
        · exact Or.inl (Or.inr ⟨rfl, h⟩)
        · exact Or.inr (Or.inl rfl)
        · exact Or.inr (Or.inr (Or.inr ⟨rfl, h⟩))
      · exact Or.inr (Or.inr (Or.inl h))

theorem strLt_trichotomy (s t : String) : clLt s.data t.data ∨ s = t ∨ clLt t.data s.data := by
  rcases clLt_trichotomy s.data t.data with h | h | h
  · exact Or.inl h
  · exact Or.inr (Or.inl (String.ext h))
  · exact Or.inr (Or.inr h)

instance : IsTrans Entry entryLe := by
  constructor
  intro a b c h1 h2
  obtain ⟨sa, pa, ta⟩ := a
  obtain ⟨sb, pb, tb⟩ := b
  obtain ⟨sc, pc, tc⟩ := c
  simp only [entryLe] at h1 h2 ⊢
  rcases h1 with h1 | ⟨rfl, h1⟩
  · rcases h2 with h2 | ⟨rfl, h2⟩
    · exact Or.inl (Nat.lt_trans h1 h2)
    · exact Or.inl h1
  · rcases h2 with h2 | ⟨rfl, h2⟩
    · exact Or.inl h2
    · refine Or.inr ⟨rfl, ?_⟩
      rcases h1 with h1 | ⟨rfl, h1⟩
      · rcases h2 with h2 | ⟨rfl, h2⟩
        · exact Or.inl (clLt_trans h1 h2)
        · exact Or.inl h1
      · rcases h2 with h2 | ⟨rfl, h2⟩
        · exact Or.inl h2
        · exact Or.inr ⟨rfl, le_trans h1 h2⟩

instance : IsTotal Entry entryLe := by
  constructor
  intro a b
  obtain ⟨sa, pa, ta⟩ := a
  obtain ⟨sb, pb, tb⟩ := b
  simp only [entryLe]
  rcases Nat.lt_trichotomy sa sb with h | rfl | h
  · exact Or.inl (Or.inl h)
  · rcases strLt_trichotomy pa pb with h | rfl | h
    · exact Or.inl (Or.inr ⟨rfl, Or.inl h⟩)
    · rcases le_total ta tb with h | h
      · exact Or.inl (Or.inr ⟨rfl, Or.inr ⟨rfl, h⟩⟩)
      · exact Or.inr (Or.inr ⟨rfl, Or.inr ⟨rfl, h⟩⟩)
    · exact Or.inr (Or.inr ⟨rfl, Or.inl h⟩)
  · exact Or.inr (Or.inl h)

instance : IsTrans Entry entryGe := by
  constructor
  intro a b c h1 h2
  exact IsTrans.trans (r := entryLe) c b a h2 h1

instance : IsTotal Entry entryGe := by
  constructor
  intro a b
  exact (IsTotal.total (r := entryLe) b a).imp id id

theorem entryLe_size {a b : Entry} (h : entryLe a b) : a.1 ≤ b.1 := by
  rcases h with h | ⟨h, _⟩
  · exact le_of_lt h
  · exact le_of_eq h

theorem sorted_sizes_of_sorted {l : List Entry} (h : l.Sorted entryGe) :
    (sizesOf l).Sorted (· ≥ ·) :=
  List.Pairwise.map _ (fun _ _ hab => entryLe_size hab) h

/-! ## The heap invariant of top_files -/

theorem sizesOf_cons (e : Entry) (l : List Entry) : sizesOf (e :: l) = e.1 :: sizesOf l := rfl

theorem sizesOf_orderedInsert (e : Entry) (l : List Entry) :
    (sizesOf (List.orderedInsert entryLe e l)).Perm (e.1 :: sizesOf l) :=
  (List.perm_orderedInsert entryLe e l).map _

/-- Invariant of the scan loop: running the remaining stream from a heap
that is sorted, within capacity, and dominates the multiset rest of sizes
already discarded (rest can be nonempty only at full capacity), the loop
returns a heap with the same three properties, where rest counts exactly
the sizes of the stream that fell out, and the heap holds
min(n, seen) entries. -/
theorem topFilesAux_spec (n : Int) (hn : 1 ≤ n) :
    ∀ (files heap : List Entry) (rest : Multiset Nat),
      heap.Sorted entryLe →
      heap.length ≤ n.toNat →
      (heap.length < n.toNat → rest = 0) →
      (∀ a ∈ rest, ∀ b ∈ sizesOf heap, a ≤ b) →
      ∃ h' rest',
        topFilesAux n heap files = some h' ∧
        h'.Sorted entryLe ∧
        (↑(sizesOf h') + rest' : Multiset Nat) = ↑(sizesOf heap) + rest + ↑(sizesOf files) ∧
        h'.length = min n.toNat (heap.length + files.length) ∧
        (∀ a ∈ rest', ∀ b ∈ sizesOf h', a ≤ b) := by
  intro files
  induction files with
  | nil =>
    intro heap rest hs hlen hcap hdom
    refine ⟨heap, rest, rfl, hs, by simp [sizesOf], by simp; omega, hdom⟩
  | cons e fs ih =>
    intro heap rest hs hlen hcap hdom
    by_cases hlt : (heap.length : Int) < n
    · -- still below capacity: heappush
      have hlen' : heap.length < n.toNat := by omega
      have hrest : rest = 0 := hcap hlen'
      subst hrest
      obtain ⟨h', rest', heq, hs', hmul, hlen2, hdom'⟩ :=
        ih (List.orderedInsert entryLe e heap) 0
          (List.Sorted.orderedInsert e heap hs)
          (by rw [List.orderedInsert_length]; omega)
          (fun _ => rfl)
          (by simp)
      refine ⟨h', rest', ?_, hs', ?_, ?_, hdom'⟩
      · show topFilesAux n heap (e :: fs) = some h'
        simp only [topFilesAux, if_pos hlt]
        exact heq
      · have hoi : (↑(sizesOf (List.orderedInsert entryLe e heap)) : Multiset Nat)
            = ↑(e.1 :: sizesOf heap) :=
          Multiset.coe_eq_coe.mpr (sizesOf_orderedInsert e heap)
        rw [hmul, hoi, sizesOf_cons]
        simp only [← Multiset.cons_coe, Multiset.cons_add, Multiset.add_cons, add_zero]
      · rw [hlen2, List.orderedInsert_length]
        simp only [List.length_cons]
        omega
    · -- at capacity
      cases heap with
      | nil => exfalso; simp at hlt; omega
      | cons m tl =>
        have hcapEq : tl.length + 1 = n.toNat := by
          simp only [List.length_cons] at hlen hlt; omega
        have hmtl : ∀ b ∈ sizesOf tl, m.1 ≤ b := by
          intro b hb
          obtain ⟨x, hx, rfl⟩ := List.mem_map.mp hb
          exact entryLe_size ((List.sorted_cons.mp hs).1 x hx)
        by_cases hgt : m.1 < e.1
        · -- heapreplace: drop the minimum m, insert e
          obtain ⟨h', rest', heq, hs', hmul, hlen2, hdom'⟩ :=
            ih (List.orderedInsert entryLe e tl) (m.1 ::ₘ rest)
              (List.Sorted.orderedInsert e tl (List.sorted_cons.mp hs).2)
              (by rw [List.orderedInsert_length]; omega)
              (by rw [List.orderedInsert_length]; omega)
              (by
                intro a ha b hb
                have hb' : b ∈ e.1 :: sizesOf tl :=
                  ((sizesOf_orderedInsert e tl).mem_iff).mp hb
                rcases Multiset.mem_cons.mp ha with rfl | ha
                · rcases List.mem_cons.mp hb' with rfl | hb'
                  · exact le_of_lt hgt
                  · exact hmtl b hb'
                · have ham : a ≤ m.1 := hdom a ha m.1 (by simp [sizesOf])
                  rcases List.mem_cons.mp hb' with rfl | hb'
                  · exact le_trans ham (le_of_lt hgt)
                  · exact le_trans ham (hmtl b hb'))
          refine ⟨h', rest', ?_, hs', ?_, ?_, hdom'⟩
          · show topFilesAux n (m :: tl) (e :: fs) = some h'
            simp only [topFilesAux, if_neg hlt, if_pos hgt]
            exact heq
          · have hoi : (↑(sizesOf (List.orderedInsert entryLe e tl)) : Multiset Nat)
                = ↑(e.1 :: sizesOf tl) :=
              Multiset.coe_eq_coe.mpr (sizesOf_orderedInsert e tl)
            rw [hmul, hoi, sizesOf_cons, sizesOf_cons]
            simp only [← Multiset.cons_coe, Multiset.cons_add, Multiset.add_cons]
            rw [Multiset.cons_swap]
          · rw [hlen2, List.orderedInsert_length]
            simp only [List.length_cons]
            omega
        · -- new file too small: skipped
          obtain ⟨h', rest', heq, hs', hmul, hlen2, hdom'⟩ :=
            ih (m :: tl) (e.1 ::ₘ rest) hs hlen
              (by simp only [List.length_cons]; omega)
              (by
                intro a ha b hb
                rcases Multiset.mem_cons.mp ha with rfl | ha
                · rcases List.mem_cons.mp hb with rfl | hb'
                  · exact le_of_not_lt hgt
                  · exact le_trans (le_of_not_lt hgt) (hmtl b hb')
                · exact hdom a ha b hb)
          refine ⟨h', rest', ?_, hs', ?_, ?_, hdom'⟩
          · show topFilesAux n (m :: tl) (e :: fs) = some h'
            simp only [topFilesAux, if_neg hlt, if_neg hgt]
            exact heq
          · rw [hmul, sizesOf_cons, sizesOf_cons]
            simp only [← Multiset.cons_coe, Multiset.cons_add, Multiset.add_cons]
          · rw [hlen2]
            simp only [List.length_cons]
            omega

/-- Take-n characterisation: a sorted-descending list T whose multiset,
together with a dominated remainder R, makes up S, and whose length is
min n |S|, is exactly the full descending sort of S truncated to n. -/
theorem selection_take (S T : List Nat) (R : Multiset Nat) (n : Nat)
    (hperm : (↑T + R : Multiset Nat) = ↑S)
    (hlen : T.length = min n S.length)
    (hdom : ∀ a ∈ R, ∀ b ∈ T, a ≤ b)
    (hsort : T.Sorted (· ≥ ·)) :
    T = (S.insertionSort (· ≥ ·)).take n := by
  set DR : List Nat := R.toList.insertionSort (· ≥ ·) with hDR
  have hRcoe : (↑DR : Multiset Nat) = R := by
    rw [hDR, Multiset.coe_eq_coe.mpr (List.perm_insertionSort _ _), Multiset.coe_toList]
  have hsortDR : DR.Sorted (· ≥ ·) := List.sorted_insertionSort _ _
  have hmemDR : ∀ a ∈ DR, a ∈ R := by
    intro a ha
    rw [← hRcoe]
    exact ha
  have hsortTD : (T ++ DR).Sorted (· ≥ ·) := by
    rw [List.Sorted, List.pairwise_append]
    exact ⟨hsort, hsortDR, fun a haT b hbD => hdom b (hmemDR b hbD) a haT⟩
  have hpermTD : (T ++ DR).Perm (S.insertionSort (· ≥ ·)) := by
    rw [← Multiset.coe_eq_coe, ← Multiset.coe_add, hRcoe, hperm, Multiset.coe_eq_coe]
    exact (List.perm_insertionSort _ _).symm
  have hEq : T ++ DR = S.insertionSort (· ≥ ·) :=
    List.eq_of_perm_of_sorted hpermTD hsortTD (List.sorted_insertionSort _ _)
  rw [← hEq]
  rcases le_or_lt n S.length with hns | hns
  · have hTn : T.length = n := by omega
    rw [List.take_left' hTn]
  · have hTS : T.length = S.length := by omega
    have hlenTD : T.length + DR.length = S.length := by
      have := congrArg Multiset.card hperm
      simp [hRcoe.symm] at this
      simpa using this
    have hDRnil : DR = [] := List.length_eq_zero.mp (by omega)
    rw [hDRnil, List.append_nil]
    exact (List.take_of_length_le (by omega)).symm

/-! ## Claims C1, C2, C10: top_files -/

/-- C1, amended: for every root (modelled as a finite stream of
(size, path, mtime) file entries) and every n >= 1, top_files(root, n)
returns a sequence whose length is <= n and <= the total number of files,
sorted non-increasing by size, and whose sizes are exactly the true n
largest sizes of the whole file set, as a full descending sort truncated
to n would give.  (The claim's bound n >= 0 fails: at n = 0 with a
nonempty stream the code raises IndexError, see the counterexample.) -/
theorem top_files_correct (files : List Entry) (n : Int) (hn : 1 ≤ n) :
    ∃ r, top_files files n = some r ∧
      (r.length : Int) ≤ n ∧ r.length ≤ files.length ∧
      (sizesOf r).Sorted (· ≥ ·) ∧
      sizesOf r = ((sizesOf files).insertionSort (· ≥ ·)).take n.toNat := by
  obtain ⟨h', rest', heq, hs', hmul, hlen2, hdom'⟩ :=
    topFilesAux_spec n hn files [] 0 (by simp) (by simp) (fun _ => rfl) (by simp)
  have hperm : (List.insertionSort entryGe h').Perm h' := List.perm_insertionSort entryGe h'
  have hszperm : (sizesOf (List.insertionSort entryGe h')).Perm (sizesOf h') := hperm.map _
  have hlenr : (List.insertionSort entryGe h').length = h'.length :=
    List.length_insertionSort entryGe h'
  have hlenS : (sizesOf files).length = files.length := List.length_map _ _
  refine ⟨h'.insertionSort entryGe, ?_, ?_, ?_, ?_, ?_⟩
  · unfold top_files
    rw [heq]
    rfl
  · rw [hlenr]
    simp only [List.length_nil] at hlen2
    omega
  · rw [hlenr]
    simp only [List.length_nil] at hlen2
    omega
  · exact sorted_sizes_of_sorted (List.sorted_insertionSort entryGe h')
  · apply selection_take (sizesOf files) _ rest' n.toNat
    · rw [Multiset.coe_eq_coe.mpr hszperm, hmul]
      simp [sizesOf]
    · have : (sizesOf (List.insertionSort entryGe h')).length
          = (List.insertionSort entryGe h').length := List.length_map _ _
      rw [this, hlenr, hlenS]
      simp only [List.length_nil] at hlen2
      omega
    · intro a ha b hb
      exact hdom' a ha b (hszperm.mem_iff.mp hb)
    · exact sorted_sizes_of_sorted (List.sorted_insertionSort entryGe h')

/-- C1 witness: the synthetic stream of sizes 10, 50, 5, 200, 1 at n = 3. -/
theorem top_files_correct_witness :
    1 ≤ (3 : Int) ∧
    ∃ r, top_files [(10, "a", 0), (50, "b", 1), (5, "c", 2), (200, "d", 3), (1, "e", 4)] 3
        = some r ∧
      (r.length : Int) ≤ 3 ∧
      r.length ≤ ([(10, "a", 0), (50, "b", 1), (5, "c", 2), (200, "d", 3),
        (1, "e", 4)] : List Entry).length ∧
      (sizesOf r).Sorted (· ≥ ·) ∧
      sizesOf r = ((sizesOf [(10, "a", 0), (50, "b", 1), (5, "c", 2), (200, "d", 3),
        (1, "e", 4)]).insertionSort (· ≥ ·)).take (3 : Int).toNat :=
  ⟨by decide, top_files_correct _ 3 (by decide)⟩

/-- C1 counterexample: n = 0 satisfies the claim's n >= 0, yet on a stream
holding one file top_files returns no sequence at all: len(heap) < 0 is
false and heap[0][0] raises IndexError on the empty heap. -/
theorem top_files_zero_counterexample :
    top_files [(5, "f", 0)] 0 = none := by decide

/-- C2 (code bug): for n <= 0 the scan raises IndexError as soon as one
file is seen, instead of returning an empty sequence as claimed; the
empty-stream cases (a root with no visible files, or a root that cannot
be opened, which iter_files turns into the empty stream) do return []. -/
theorem top_files_nonpos_eval :
    top_files [(7, "g", 1)] 0 = none ∧
    top_files [(7, "g", 1)] (-1) = none ∧
    top_files ([] : List Entry) 0 = some [] ∧
    top_files ([] : List Entry) (-5) = some [] ∧
    top_files ([] : List Entry) 20 = some [] := by
  refine ⟨by decide, by decide, by decide, by decide, by decide⟩

/-- C10: the final heap.sort(reverse=True) compares whole
(size, path, mtime) tuples, so for n >= 1 the returned sequence is sorted
by the reversed tuple order; in particular entries of equal size appear in
descending code-point order of path, and for equal paths in descending
mtime order.  The output is a function of the input stream alone. -/
theorem top_files_tie_break (files : List Entry) (n : Int) (hn : 1 ≤ n) :
    ∃ r, top_files files n = some r ∧
      r.Sorted (fun a b => entryLe b a) ∧
      r.Sorted (fun a b => a.1 = b.1 →
        clLt b.2.1.data a.2.1.data ∨ (b.2.1 = a.2.1 ∧ b.2.2 ≤ a.2.2)) := by
  obtain ⟨h', _, heq, _, _, _, _⟩ :=
    topFilesAux_spec n hn files [] 0 (by simp) (by simp) (fun _ => rfl) (by simp)
  refine ⟨h'.insertionSort entryGe, ?_, ?_, ?_⟩
  · unfold top_files
    rw [heq]
    rfl
  · exact List.sorted_insertionSort entryGe h'
  · refine List.Pairwise.imp ?_ (List.sorted_insertionSort entryGe h')
    intro a b hab
    intro heqsize
    rcases hab with h | ⟨_, h⟩
    · exfalso; omega
    · exact h

/-- C10 witness: two files of equal size 5; the path "b" sorts before
"a" in the output. -/
theorem top_files_tie_break_witness :
    1 ≤ (2 : Int) ∧
    ∃ r, top_files [(5, "a", 0), (5, "b", 1)] 2 = some r ∧
      r.Sorted (fun a b => entryLe b a) ∧
      r.Sorted (fun a b => a.1 = b.1 →
        clLt b.2.1.data a.2.1.data ∨ (b.2.1 = a.2.1 ∧ b.2.2 ≤ a.2.2)) :=
  ⟨by decide, top_files_tie_break _ 2 (by decide)⟩

/-! ## Claims C3, C4, C5: parse_selection -/

theorem mem_addChosen (c : List Int) (i x : Int) :
    x ∈ addChosen c i ↔ x ∈ c ∨ x = i := by
  by_cases h : i ∈ c
  · simp only [addChosen, if_pos h]
    constructor
    · exact Or.inl
    · rintro (hx | rfl)
      · exact hx
      · exact h
  · simp only [addChosen, if_neg h, List.mem_cons]
    exact or_comm

theorem addChosen_nodup (c : List Int) (i : Int) (h : c.Nodup) : (addChosen c i).Nodup := by
  by_cases hi : i ∈ c
  · simpa [addChosen, hi] using h
  · simp [addChosen, hi, h]

theorem rangeFold_nodup (m : Int) :
    ∀ (l c : List Int), c.Nodup →
      (l.foldl (fun c i => if 1 ≤ i ∧ i ≤ m then addChosen c i else c) c).Nodup := by
  intro l
  induction l with
  | nil => intro c h; exact h
  | cons i l ih =>
    intro c h
    simp only [List.foldl_cons]
    split
    · exact ih _ (addChosen_nodup c i h)
    · exact ih _ h

theorem rangeFold_mem (m : Int) :
    ∀ (l c : List Int) (x : Int),
      x ∈ l.foldl (fun c i => if 1 ≤ i ∧ i ≤ m then addChosen c i else c) c ↔
        x ∈ c ∨ (x ∈ l ∧ 1 ≤ x ∧ x ≤ m) := by
  intro l
  induction l with
  | nil => intro c x; simp
  | cons i l ih =>
    intro c x
    simp only [List.foldl_cons, List.mem_cons]
    split
    · rename_i h
      rw [ih, mem_addChosen]
      constructor
      · rintro ((hc | rfl) | ⟨hl, hb⟩)
        · exact Or.inl hc
        · exact Or.inr ⟨Or.inl rfl, h⟩
        · exact Or.inr ⟨Or.inr hl, hb⟩
      · rintro (hc | ⟨rfl | hl, hb⟩)
        · exact Or.inl (Or.inl hc)
        · exact Or.inl (Or.inr rfl)
        · exact Or.inr ⟨hl, hb⟩
    · rename_i h
      rw [ih]
      constructor
      · rintro (hc | ⟨hl, hb⟩)
        · exact Or.inl hc
        · exact Or.inr ⟨Or.inr hl, hb⟩
      · rintro (hc | ⟨rfl | hl, hb⟩)
        · exact Or.inl hc
        · exact absurd hb h
        · exact Or.inr ⟨hl, hb⟩

theorem rangeFold_bounds (m : Int) :
    ∀ (l c : List Int), (∀ x ∈ c, 1 ≤ x ∧ x ≤ m) →
      ∀ x ∈ l.foldl (fun c i => if 1 ≤ i ∧ i ≤ m then addChosen c i else c) c,
        1 ≤ x ∧ x ≤ m := by
  intro l c hb x hx
  rcases (rangeFold_mem m l c x).mp hx with h | ⟨_, h⟩
  · exact hb x h
  · exact h

theorem mem_intRangeCl (a b x : Int) : x ∈ intRangeCl a b ↔ a ≤ x ∧ x ≤ b := by
  simp only [intRangeCl, List.mem_map, List.mem_range]
  constructor
  · rintro ⟨k, hk, rfl⟩
    omega
  · intro h
    exact ⟨(x - a).toNat, by omega, by omega⟩

theorem swapIfGt_comm (a b : Int) : swapIfGt a b = swapIfGt b a := by
  unfold swapIfGt
  rcases lt_trichotomy a b with h | rfl | h
  · rw [if_neg (by omega : ¬a > b), if_pos (by omega : b > a)]
  · rfl
  · rw [if_pos (by omega : a > b), if_neg (by omega : ¬b > a)]

theorem swapIfGt_fst (a b : Int) : (swapIfGt a b).1 = min a b := by
  unfold swapIfGt
  split
  · rename_i h
    exact (min_eq_right (le_of_lt h)).symm
  · rename_i h
    exact (min_eq_left (le_of_not_lt h)).symm

theorem swapIfGt_snd (a b : Int) : (swapIfGt a b).2 = max a b := by
  unfold swapIfGt
  split
  · rename_i h
    exact (max_eq_left (le_of_lt h)).symm
  · rename_i h
    exact (max_eq_right (le_of_not_lt h)).symm

theorem mem_rangeAdd (m a b : Int) (c : List Int) (x : Int) :
    x ∈ rangeAdd m a b c ↔
      x ∈ c ∨ (min a b ≤ x ∧ x ≤ max a b ∧ 1 ≤ x ∧ x ≤ m) := by
  unfold rangeAdd
  rw [rangeFold_mem, mem_intRangeCl, swapIfGt_fst, swapIfGt_snd]
  tauto

theorem rangeAdd_nodup (m a b : Int) (c : List Int) (h : c.Nodup) :
    (rangeAdd m a b c).Nodup := by
  unfold rangeAdd
  exact rangeFold_nodup m _ c h

theorem rangeAdd_bounds (m a b : Int) (c : List Int) (hb : ∀ x ∈ c, 1 ≤ x ∧ x ≤ m) :
    ∀ x ∈ rangeAdd m a b c, 1 ≤ x ∧ x ≤ m := by
  unfold rangeAdd
  exact rangeFold_bounds m _ c hb

theorem singleStep_shape (m : Int) (tok : List Char) (c c' : List Int)
    (h : singleStep m tok c = .ok c')
    (hnd : c.Nodup) (hb : ∀ x ∈ c, 1 ≤ x ∧ x ≤ m) :
    c'.Nodup ∧ ∀ x ∈ c', 1 ≤ x ∧ x ≤ m := by
  unfold singleStep at h
  split at h
  · unfold pyInt at h
    split at h
    · simp only [Except.map, Except.ok.injEq] at h
      subst h
      split
      · rename_i hbv
        refine ⟨addChosen_nodup _ _ hnd, ?_⟩
        intro x hx
        rcases (mem_addChosen _ _ _).mp hx with hx | rfl
        · exact hb x hx
        · exact hbv
      · exact ⟨hnd, hb⟩
    · simp [Except.map] at h
  · simp only [Except.ok.injEq] at h
    subst h
    exact ⟨hnd, hb⟩

theorem tokenStep_shape (m : Int) (tok : List Char) (c c' : List Int)
    (h : tokenStep m tok c = .ok c')
    (hnd : c.Nodup) (hb : ∀ x ∈ c, 1 ≤ x ∧ x ≤ m) :
    c'.Nodup ∧ ∀ x ∈ c', 1 ≤ x ∧ x ≤ m := by
  unfold tokenStep at h
  split at h
  · split at h
    · split at h
      · split at h
        · simp only [Except.ok.injEq] at h
          subst h
          exact ⟨rangeAdd_nodup m _ _ c hnd, rangeAdd_bounds m _ _ c hb⟩
        · simp at h
        · simp at h
      · exact singleStep_shape m tok c c' h hnd hb
    · exact singleStep_shape m tok c c' h hnd hb
  · exact singleStep_shape m tok c c' h hnd hb

theorem intRange1_shape (m : Int) :
    (intRange1 m).Nodup ∧ (intRange1 m).Sorted (· < ·) ∧
      ∀ x ∈ intRange1 m, 1 ≤ x ∧ x ≤ m := by
  refine ⟨?_, ?_, ?_⟩
  · unfold intRange1 intRangeCl
    exact List.Nodup.map (fun x y h => by omega) (List.nodup_range _)
  · unfold intRange1 intRangeCl
    exact List.Pairwise.map _ (fun x y h => by omega) (List.pairwise_lt_range _)
  · intro x hx
    exact (mem_intRangeCl 1 m x).mp hx

theorem goTokens_shape (m : Int) :
    ∀ (ts : List (List Char)) (c r : List Int),
      c.Nodup → (∀ x ∈ c, 1 ≤ x ∧ x ≤ m) →
      goTokens m ts c = .ok r →
      r.Nodup ∧ r.Sorted (· < ·) ∧ ∀ x ∈ r, 1 ≤ x ∧ x ≤ m := by
  intro ts
  induction ts with
  | nil =>
    intro c r hnd hb h
    simp only [goTokens, Except.ok.injEq] at h
    subst h
    have hperm := List.perm_insertionSort (fun a b : Int => a ≤ b) c
    have hnd' : (c.insertionSort (· ≤ ·)).Nodup := hnd.perm hperm.symm
    have hsle : (c.insertionSort (· ≤ ·)).Sorted (· ≤ ·) :=
      List.sorted_insertionSort _ c
    refine ⟨hnd', hsle.lt_of_le hnd', ?_⟩
    intro x hx
    exact hb x (hperm.mem_iff.mp hx)
  | cons tok ts ih =>
    intro c r hnd hb h
    simp only [goTokens] at h
    split at h
    · simp only [Except.ok.injEq] at h
      subst h
      exact intRange1_shape m
    · split at h
      · rename_i c2 heq
        obtain ⟨hnd2, hb2⟩ := tokenStep_shape m tok c c2 heq hnd hb
        exact ih c2 r hnd2 hb2 h
      · simp at h

/-- C3 (code bug): parse_selection can raise after all.  The superscript
two passes str.isdigit (a Unicode digit-property character) but is not a
decimal digit, so int() raises ValueError, both as a bare token and as a
range bound.  The claim says malformed tokens are always silently
dropped and the function never raises. -/
theorem parse_selection_superscript_raises :
    parse_selection "²" 5 = .error "ValueError: invalid literal for int() with base 10" ∧
    parse_selection "1-²" 5 = .error "ValueError: invalid literal for int() with base 10" :=
  ⟨rfl, rfl⟩

/-- C4: the six concrete test vectors of the specification, evaluated on
the embedding of parse_selection. -/
theorem parse_selection_examples :
    parse_selection "all" 5 = .ok [1, 2, 3, 4, 5] ∧
    parse_selection "1,3,5" 5 = .ok [1, 3, 5] ∧
    parse_selection "1 - 4" 10 = .ok [1, 2, 3, 4] ∧
    parse_selection "1-3, 5, 7-8" 10 = .ok [1, 2, 3, 5, 7, 8] ∧
    parse_selection "0,99" 5 = .ok [] ∧
    parse_selection "" 5 = .ok [] :=
  ⟨rfl, rfl, rfl, rfl, rfl, rfl⟩

/-- C5: whenever parse_selection returns (rather than raising), the result
is a duplicate-free, strictly ascending list of indices within
[1, maxIndex]; and a range token A-B with A > B is expanded with its
bounds swapped, keeping exactly the in-range values of the inclusive
interval between the two bounds. -/
theorem parse_selection_shape (m : Int) (hm : 0 ≤ m) :
    (∀ (s : String) (r : List Int), parse_selection s m = .ok r →
        r.Nodup ∧ r.Sorted (· < ·) ∧ ∀ x ∈ r, 1 ≤ x ∧ x ≤ m) ∧
    (∀ (a b : Int) (c : List Int),
        rangeAdd m a b c = rangeAdd m b a c ∧
        (∀ x, x ∈ rangeAdd m a b c ↔
          x ∈ c ∨ (min a b ≤ x ∧ x ≤ max a b ∧ 1 ≤ x ∧ x ≤ m))) := by
  constructor
  · intro s r h
    unfold parse_selection at h
    split at h
    · simp only [Except.ok.injEq] at h
      subst h
      simp
    · split at h
      · simp only [Except.ok.injEq] at h
        subst h
        exact intRange1_shape m
      · exact goTokens_shape m _ [] r (by simp) (by simp) h
  · intro a b c
    constructor
    · unfold rangeAdd
      rw [swapIfGt_comm]
    · intro x
      exact mem_rangeAdd m a b c x

/-- C5 witness at maxIndex 5. -/
theorem parse_selection_shape_witness :
    0 ≤ (5 : Int) ∧
    ((∀ (s : String) (r : List Int), parse_selection s 5 = .ok r →
        r.Nodup ∧ r.Sorted (· < ·) ∧ ∀ x ∈ r, 1 ≤ x ∧ x ≤ 5) ∧
    (∀ (a b : Int) (c : List Int),
        rangeAdd 5 a b c = rangeAdd 5 b a c ∧
        (∀ x, x ∈ rangeAdd 5 a b c ↔
          x ∈ c ∨ (min a b ≤ x ∧ x ≤ max a b ∧ 1 ≤ x ∧ x ≤ 5)))) :=
  ⟨by decide, parse_selection_shape 5 (by decide)⟩

/-! ## Claims C6, C7: top_folders -/

mutual
theorem subSize_eq_spec : ∀ t, subSize t = (specSizes t).sum
  | .file _ s _ ok => by cases ok <;> simp [subSize, specSizes]
  | .dir _ _ false _ => by simp [subSize, specSizes]
  | .dir _ _ true cs => by
      simp only [subSize, specSizes]
      exact forestSize_eq_spec cs
theorem forestSize_eq_spec : ∀ f, forestSize f = (specForest f).sum
  | .nil => by simp [forestSize, specForest]
  | .cons t f => by
      simp [forestSize, specForest, subSize_eq_spec t, forestSize_eq_spec f]
end

theorem folder_size_eq_spec (nm : String) (mt : Int) (rd : Bool) (cs : Forest) :
    folder_size (.dir nm mt rd cs) = (specSizes (.dir nm mt rd cs)).sum := by
  cases rd
  · simp [folder_size, specSizes]
  · simp only [folder_size, specSizes]
    exact forestSize_eq_spec cs

theorem mem_dirEntries : ∀ (f : Forest) (rec : Entry), rec ∈ dirEntries f →
    ∃ nm mt rd cs, FsTree.dir nm mt rd cs ∈ f.toList ∧
      rec = (folder_size (.dir nm mt rd cs), nm, mt)
  | .nil, rec, h => by simp [dirEntries] at h
  | .cons (.file _ _ _ _) f, rec, h => by
      simp only [dirEntries] at h
      obtain ⟨nm, mt, rd, cs, hmem, hrec⟩ := mem_dirEntries f rec h
      exact ⟨nm, mt, rd, cs, by simp [Forest.toList, hmem], hrec⟩
  | .cons (.dir nm mt rd cs) f, rec, h => by
      simp only [dirEntries, List.mem_cons] at h
      rcases h with rfl | h
      · exact ⟨nm, mt, rd, cs, by simp [Forest.toList], rfl⟩
      · obtain ⟨nm', mt', rd', cs', hmem, hrec⟩ := mem_dirEntries f rec h
        exact ⟨nm', mt', rd', cs', by simp [Forest.toList, hmem], hrec⟩

/-- C6: top_folders ranks only the immediate child directories of the
root: every returned record comes from a depth-1 child directory, carrying
that child's path and mtime, and its size is the sum of the sizes of all
files the permissive walk sees anywhere beneath that child (files at depth
two or more included through the recursive collector; files whose stat
fails and unreadable subtrees contribute zero).  In particular a deep file
never yields a ranked entry of its own. -/
theorem top_folders_depth1 (root : FsTree) (n : Int) :
    ∀ rec ∈ top_folders root n,
      ∃ nm mt rd cs, FsTree.dir nm mt rd cs ∈ (childrenOf root).toList ∧
        rec.2.1 = nm ∧ rec.2.2 = mt ∧
        rec.1 = (specSizes (.dir nm mt rd cs)).sum := by
  intro rec hrec
  cases root with
  | file nm0 s0 mt0 ok0 => simp [top_folders] at hrec
  | dir nm0 mt0 rd0 cs =>
  cases rd0 with
  | false => simp [top_folders] at hrec
  | true =>
    have h1 : rec ∈ (dirEntries cs).insertionSort entryGe := by
      simp only [top_folders, pySliceTo] at hrec
      split at hrec
      · exact List.mem_of_mem_take hrec
      · exact List.mem_of_mem_take hrec
    have h2 : rec ∈ dirEntries cs := (List.mem_insertionSort entryGe).mp h1
    obtain ⟨nm, mt, rd, cs', hmem, hrec'⟩ := mem_dirEntries cs rec h2
    subst hrec'
    refine ⟨nm, mt, rd, cs', ?_, rfl, rfl, ?_⟩
    · simpa [childrenOf] using hmem
    · exact folder_size_eq_spec nm mt rd cs'

/-- C6 witness: in the example tree the file at depth two (7 bytes) is
counted into the aggregate 17 of its depth-1 ancestor d1, which is the
only ranked entry. -/
theorem top_folders_depth1_witness :
    ((17, "d1", 1) : Entry) ∈ top_folders exTree 5 ∧
    ∃ nm mt rd cs, FsTree.dir nm mt rd cs ∈ (childrenOf exTree).toList ∧
      ((17, "d1", 1) : Entry).2.1 = nm ∧ ((17, "d1", 1) : Entry).2.2 = mt ∧
      ((17, "d1", 1) : Entry).1 = (specSizes (.dir nm mt rd cs)).sum :=
  ⟨by decide, top_folders_depth1 exTree 5 _ (by decide)⟩

/-- C7, amended: for every root and every n >= 0, top_folders(root, n)
returns a sequence sorted largest-first of length at most n, and an
unopenable root yields the empty sequence (for every n).  The claim's
quantification over every integer n fails: a negative n is a Python
negative slice bound, which keeps all but the last |n| entries instead of
at most n, see the counterexample. -/
theorem top_folders_bounds (root : FsTree) (n : Int) (hn : 0 ≤ n) :
    ((top_folders root n).length : Int) ≤ n ∧
    (sizesOf (top_folders root n)).Sorted (· ≥ ·) ∧
    (scanFails root = true → top_folders root n = []) := by
  refine ⟨?_, ?_, ?_⟩
  · cases root with
    | file nm s mt ok => simp [top_folders]; omega
    | dir nm mt rd cs =>
      cases rd with
      | false => simp [top_folders]; omega
      | true =>
        simp only [top_folders, pySliceTo]
        rw [if_pos hn]
        have h2 : (List.take n.toNat ((dirEntries cs).insertionSort entryGe)).length
            ≤ n.toNat := by
          rw [List.length_take]
          omega
        omega
  · cases root with
    | file nm s mt ok => simp [top_folders, sizesOf]
    | dir nm mt rd cs =>
      cases rd with
      | false => simp [top_folders, sizesOf]
      | true =>
        simp only [top_folders, pySliceTo]
        rw [if_pos hn]
        apply sorted_sizes_of_sorted
        exact List.Pairwise.sublist (List.take_sublist _ _)
          (List.sorted_insertionSort entryGe (dirEntries cs))
  · intro hfail
    cases root with
    | file nm s mt ok => rfl
    | dir nm mt rd cs =>
      cases rd with
      | false => rfl
      | true => simp [scanFails] at hfail

/-- C7 witness at the two-directory tree with n = 1. -/
theorem top_folders_bounds_witness :
    0 ≤ (1 : Int) ∧
    (((top_folders twoDirTree 1).length : Int) ≤ 1 ∧
     (sizesOf (top_folders twoDirTree 1)).Sorted (· ≥ ·) ∧
     (scanFails twoDirTree = true → top_folders twoDirTree 1 = [])) :=
  ⟨by decide, top_folders_bounds twoDirTree 1 (by decide)⟩

/-- C7 counterexample: n = -1 is an integer the claim quantifies over, but
on a root with two child directories the Python slice entries[:-1] keeps
one entry, whose count 1 is not at most -1. -/
theorem top_folders_negative_counterexample :
    top_folders twoDirTree (-1) = [(0, "b", 0)] ∧
    ¬ (((top_folders twoDirTree (-1)).length : Int) ≤ -1) :=
  ⟨by decide, by decide⟩

/-! ## Claims C8, C9: enumerate_disks -/

theorem clLe_trans {a b c : List Char} (h1 : clLe a b) (h2 : clLe b c) : clLe a c := by
  rcases h1 with h1 | rfl
  · rcases h2 with h2 | rfl
    · exact Or.inl (clLt_trans h1 h2)
    · exact Or.inl h1
  · exact h2

theorem clLe_total (a b : List Char) : clLe a b ∨ clLe b a := by
  rcases clLt_trichotomy a b with h | rfl | h
  · exact Or.inl (Or.inl h)
  · exact Or.inl (Or.inr rfl)
  · exact Or.inr (Or.inl h)

instance : IsTrans Disk diskLe := by
  constructor
  intro a b c h1 h2
  exact clLe_trans h1 h2

instance : IsTotal Disk diskLe := by
  constructor
  intro a b
  exact clLe_total a.1.data b.1.data

/-- Invariant of the mount loop: starting from a disk list with
duplicate-free names all marked seen, the loop keeps names duplicate-free,
keeps every reported name marked seen, reports exactly the unseen mounts
that are directories, pass the deny-list and answer the capacity query,
and marks seen exactly the mounts that are directories passing the
deny-list. -/
theorem diskFold_spec (env : MountEnv) :
    ∀ (ms : List String) (ds : List Disk) (seen : List String),
      (ds.map (fun d => d.1)).Nodup →
      (∀ p ∈ ds.map (fun d => d.1), p ∈ seen) →
      ((ms.foldl (diskStep env) (ds, seen)).1.map (fun d => d.1)).Nodup ∧
      (∀ p ∈ (ms.foldl (diskStep env) (ds, seen)).1.map (fun d => d.1),
          p ∈ (ms.foldl (diskStep env) (ds, seen)).2) ∧
      (∀ p, p ∈ (ms.foldl (diskStep env) (ds, seen)).1.map (fun d => d.1) ↔
        p ∈ ds.map (fun d => d.1) ∨
          (p ∈ ms ∧ env.isdir p = true ∧ denied p = false ∧ env.usage p ≠ none ∧
            p ∉ seen)) ∧
      (∀ p, p ∈ (ms.foldl (diskStep env) (ds, seen)).2 ↔
        p ∈ seen ∨ (p ∈ ms ∧ env.isdir p = true ∧ denied p = false ∧ p ∉ seen)) := by
  intro ms
  induction ms with
  | nil =>
    intro ds seen hnd hsub
    refine ⟨hnd, hsub, ?_, ?_⟩
    · intro p; simp
    · intro p; simp
  | cons m ms ih =>
    intro ds seen hnd hsub
    simp only [List.foldl_cons]
    rcases hd : env.isdir m with _ | _
    · -- not a directory: skipped
      have hstep : diskStep env (ds, seen) m = (ds, seen) := by
        simp [diskStep, hd]
      rw [hstep]
      obtain ⟨h1, h2, h3, h4⟩ := ih ds seen hnd hsub
      refine ⟨h1, h2, ?_, ?_⟩
      · intro p
        rw [h3 p]
        by_cases hpm : p = m
        · subst hpm
          simp [hd]
        · simp only [List.mem_cons, hpm, false_or]
      · intro p
        rw [h4 p]
        by_cases hpm : p = m
        · subst hpm
          simp [hd]
        · simp only [List.mem_cons, hpm, false_or]
    · rcases hden : denied m with _ | _
      · by_cases hseen : m ∈ seen
        · -- already seen: skipped
          have hstep : diskStep env (ds, seen) m = (ds, seen) := by
            simp [diskStep, hd, hden, hseen]
          rw [hstep]
          obtain ⟨h1, h2, h3, h4⟩ := ih ds seen hnd hsub
          refine ⟨h1, h2, ?_, ?_⟩
          · intro p
            rw [h3 p]
            by_cases hpm : p = m
            · subst hpm
              simp [hseen]
            · simp only [List.mem_cons, hpm, false_or]
          · intro p
            rw [h4 p]
            by_cases hpm : p = m
            · subst hpm
              simp [hseen]
            · simp only [List.mem_cons, hpm, false_or]
        · rcases husage : env.usage m with _ | tf
          · -- capacity query raises: skipped, but marked seen
            have hstep : diskStep env (ds, seen) m = (ds, m :: seen) := by
              simp [diskStep, hd, hden, hseen, husage]
            rw [hstep]
            obtain ⟨h1, h2, h3, h4⟩ :=
              ih ds (m :: seen) hnd
                (fun p hp => List.mem_cons_of_mem m (hsub p hp))
            refine ⟨h1, h2, ?_, ?_⟩
            · intro p
              rw [h3 p]
              by_cases hpm : p = m
              · subst hpm
                simp [husage, List.mem_cons]
              · simp only [List.mem_cons, hpm, false_or]
            · intro p
              rw [h4 p]
              by_cases hpm : p = m
              · subst hpm
                simp [hd, hden, hseen, List.mem_cons]
              · simp only [List.mem_cons, hpm, false_or]
          · -- fresh mount with successful query: device appended
            obtain ⟨total, free⟩ := tf
            have hstep : diskStep env (ds, seen) m
                = (ds ++ [(m, m, total, free)], m :: seen) := by
              simp [diskStep, hd, hden, hseen, husage]
            rw [hstep]
            have hmnotin : m ∉ ds.map (fun d => d.1) := fun hc => hseen (hsub m hc)
            have hnd' : ((ds ++ [(m, m, total, free)]).map (fun d => d.1)).Nodup := by
              rw [List.map_append, List.nodup_append]
              refine ⟨hnd, by simp, ?_⟩
              intro p hp
              simp only [List.map_cons, List.map_nil, List.mem_cons,
                List.not_mem_nil, or_false]
              intro hpm
              subst hpm
              exact hmnotin hp
            have hsub' : ∀ p ∈ (ds ++ [(m, m, total, free)]).map (fun d => d.1),
                p ∈ m :: seen := by
              intro p hp
              rw [List.map_append, List.mem_append] at hp
              rcases hp with hp | hp
              · exact List.mem_cons_of_mem m (hsub p hp)
              · simp only [List.map_cons, List.map_nil, List.mem_cons,
                  List.not_mem_nil, or_false] at hp
                subst hp
                exact List.mem_cons_self _ _
            obtain ⟨h1, h2, h3, h4⟩ :=
              ih (ds ++ [(m, m, total, free)]) (m :: seen) hnd' hsub'
            refine ⟨h1, h2, ?_, ?_⟩
            · intro p
              rw [h3 p, List.map_append]
              by_cases hpm : p = m
              · subst hpm
                simp [hd, hden, hseen, husage, List.mem_cons, List.mem_append]
              · simp only [List.mem_cons, List.mem_append, hpm, false_or,
                  List.map_cons, List.map_nil, List.not_mem_nil, or_false]
            · intro p
              rw [h4 p]
              by_cases hpm : p = m
              · subst hpm
                simp [hd, hden, hseen, List.mem_cons]
              · simp only [List.mem_cons, hpm, false_or]
      · -- deny-listed: skipped entirely
        have hstep : diskStep env (ds, seen) m = (ds, seen) := by
          simp [diskStep, hd, hden]
        rw [hstep]
        obtain ⟨h1, h2, h3, h4⟩ := ih ds seen hnd hsub
        refine ⟨h1, h2, ?_, ?_⟩
        · intro p
          rw [h3 p]
          by_cases hpm : p = m
          · subst hpm
            simp [hden]
          · simp only [List.mem_cons, hpm, false_or]
        · intro p
          rw [h4 p]
          by_cases hpm : p = m
          · subst hpm
            simp [hden]
          · simp only [List.mem_cons, hpm, false_or]

/-- C8 counterexample: the mount table lists "/x" and "/x/", two distinct
strings that resolve to the same filesystem path /x; enumerate_disks
reports two devices whose resolved path is /x, so deduplication is not by
resolved path. -/
theorem enumerate_disks_resolve_counterexample :
    envSlash.resolve "/x" = envSlash.resolve "/x/" ∧
    ("/x" : String) ≠ "/x/" ∧
    (enumerate_disks envSlash).map (fun d => envSlash.resolve d.1) = ["/x", "/x"] ∧
    (enumerate_disks envSlash).length = 2 :=
  ⟨by decide, by decide, by decide, by decide⟩

/-- C8, amended: devices are deduplicated by the literal mount-table path
string: the reported device names are duplicate-free, and a path is
reported exactly when it occurs in the mount table, is a directory, passes
the deny-list, and its capacity query succeeds -- so a mount whose query
fails is skipped while every other mount is still reported (the
enumeration is not aborted). -/
theorem enumerate_disks_dedup (env : MountEnv) :
    ((enumerate_disks env).map (fun d => d.1)).Nodup ∧
    (∀ p, p ∈ (enumerate_disks env).map (fun d => d.1) ↔
      p ∈ env.mounts ∧ env.isdir p = true ∧ denied p = false ∧ env.usage p ≠ none) := by
  obtain ⟨h1, _, h3, _⟩ := diskFold_spec env env.mounts [] [] (by simp) (by simp)
  have hperm : ((env.mounts.foldl (diskStep env) ([], [])).1.insertionSort diskLe).Perm
      (env.mounts.foldl (diskStep env) ([], [])).1 := List.perm_insertionSort _ _
  constructor
  · unfold enumerate_disks
    exact h1.perm (hperm.map _).symm
  · intro p
    unfold enumerate_disks
    rw [(hperm.map _).mem_iff, h3 p]
    simp

/-- C9: the device list is sorted ascending by device name in the
code-point order of Python string comparison; being a pure function of the
host environment, repeated enumerations of an unchanged environment return
the same list, so indices are stable. -/
theorem enumerate_disks_sorted (env : MountEnv) :
    ((enumerate_disks env).map (fun d => d.1)).Sorted
      (fun a b : String => clLe a.data b.data) := by
  unfold enumerate_disks
  exact List.Pairwise.map _ (fun a b h => h) (List.sorted_insertionSort diskLe _)

end DiskSpace
